import Mathlib

/-!
Verification of the agent/edit-synchronization core of the monolith agent
editor.  The TypeScript sources (`electron/main.ts`, `stores/chatStore.ts`,
`stores/workspaceStore.ts`, `components/chat/MessageList.tsx`,
`components/chat/DiffBlock.tsx`) are shallowly embedded below: pure
functions become Lean functions, the zustand stores become explicit state
records, and the privileged process's disk is an explicit association list.
Platform primitives (Node's `path.resolve`, `JSON.parse`) are taken as
parameters of the embedding.
-/

namespace Monolith

/-! ## Path Guard (`isWithinWorkspace`, electron/main.ts) -/

/-- One character of JS `String.prototype.toLowerCase` (maps A–Z to a–z,
as Lean's `Char.toLower` does). -/
def foldChar (c : Char) : Char := c.toLower

/-- One character of `.replace(/\\/g, '/')`: every backslash becomes a
forward slash, all other characters unchanged. -/
def sepChar (c : Char) : Char := if c = '\\' then '/' else c

/-- Normalisation used by `isWithinWorkspace`:
`resolve(p).toLowerCase().replace(/\\/g, '/')`, with `resolve` (Node's
`path.resolve`) supplied as the parameter `ρ`. -/
def normalizePath (ρ : String → String) (p : String) : List Char :=
  ((ρ p).data.map foldChar).map sepChar

/-- The guard `isWithinWorkspace` from electron/main.ts: `false` when `workspacePath`
is `null`; otherwise the normalised target must have the normalised
workspace as a string prefix (`String.prototype.startsWith`). -/
def isWithinWorkspace (ρ : String → String) (workspacePath : Option String)
    (targetPath : String) : Bool :=
  match workspacePath with
  | none => false
  | some w => (normalizePath ρ w).isPrefixOf (normalizePath ρ targetPath)

/-- Modelled from the spec's words (§4.1/§8): the absolute,
separator-normalized, case-folded form of `p` has the equally-normalized
root as a string prefix; `false` when no root is set.  The spec names the
normalisation steps in the order absolute → separator-normalized →
case-folded, so this definition applies `sepChar` before `foldChar`. -/
def isWithinRootSpec (ρ : String → String) (root : Option String)
    (p : String) : Bool :=
  match root with
  | none => false
  | some w =>
      (((ρ w).data.map sepChar).map foldChar).isPrefixOf
        (((ρ p).data.map sepChar).map foldChar)

/-! ## Marker Codec (`parseMessageContent`, MessageList.tsx)

`parseMessageContent` scans the streamed text with the regexes
`\[DIFF_BLOCK\]([\s\S]*?)\[\/DIFF_BLOCK\]` and
`\[TOOL_STATUS\]([\s\S]*?)\[\/TOOL_STATUS\]` (global, lazy).  A global lazy
regex of this shape finds, left to right, the first occurrence of the
opening delimiter, then the first following occurrence of the closing
delimiter, and resumes after it.  `splitSub`/`extractBetween` implement
exactly that scan over character lists. -/

/-- First-occurrence search: `splitSub pat s = some (b, a)` when `pat`
occurs in `s`, with `b` the text before the first occurrence and `a` the
text after it; `none` when `pat` does not occur. -/
def splitSub (pat : List Char) : List Char → Option (List Char × List Char)
  | [] => if pat.isPrefixOf ([] : List Char) then some ([], []) else none
  | c :: rest =>
      if pat.isPrefixOf (c :: rest) then some ([], (c :: rest).drop pat.length)
      else
        match splitSub pat rest with
        | none => none
        | some (b, a) => some (c :: b, a)

/-- The global lazy scan, fuelled for structural recursion (each found
pair consumes at least the closing delimiter, so `s.length` steps always
suffice; `extractAux_congr` below makes the fuel irrelevant). -/
def extractAux (opn cls : List Char) : Nat → List Char → List (List Char)
  | 0, _ => []
  | Nat.succ fuel, s =>
      match splitSub opn s with
      | none => []
      | some (_, rest1) =>
          match splitSub cls rest1 with
          | none => []
          | some (payload, rest2) => payload :: extractAux opn cls fuel rest2

/-- The payloads of all complete delimiter pairs of the text, left to
right: what the global lazy regex scan of `parseMessageContent` collects. -/
def extractBetween (opn cls : List Char) (s : List Char) : List (List Char) :=
  extractAux opn cls s.length s

/-! ### Payloads

`parseMessageContent` JSON-parses each extracted span.  `JSON.parse` plus
the field reads are abstracted as the parameters `π` (proposal payloads)
and `σ` (status payloads): a parse failure (`catch`) drops the span from
the structured list. -/

/-- The `type: 'write' | 'edit'` field of a proposed edit. -/
inductive EditKind where
  | write
  | edit
deriving DecidableEq, Repr

/-- The JSON payload between `[DIFF_BLOCK]` delimiters (main.ts builds it
with fields `__proposed_edit__`, `id`, `type`, `path`, `relativePath`,
`originalContent`, `newContent`). -/
structure EditPayload where
  proposed : Bool
  id : String
  kind : EditKind
  path : String
  relativePath : String
  originalContent : List Char
  newContent : List Char
deriving DecidableEq, Repr

/-- The JSON payload between `[TOOL_STATUS]` delimiters. -/
structure StatusPayload where
  id : String
  toolName : String
  path : String
  status : String
  message : String
deriving DecidableEq, Repr

def diffOpen : List Char := "[DIFF_BLOCK]".data

def diffClose : List Char := "[/DIFF_BLOCK]".data

def toolOpen : List Char := "[TOOL_STATUS]".data

def toolClose : List Char := "[/TOOL_STATUS]".data

/-- The spans matched by the global lazy `DIFF_BLOCK` regex. -/
def extractDiffSpans (text : List Char) : List (List Char) :=
  extractBetween diffOpen diffClose text

/-- The spans matched by the global lazy `TOOL_STATUS` regex. -/
def extractToolSpans (text : List Char) : List (List Char) :=
  extractBetween toolOpen toolClose text

/-- The update `toolStatusesMap.set(statusData.id, statusData)`: JS `Map.set` keeps
the first-insertion position of a key and overwrites its value. -/
def upsertStatus (l : List StatusPayload) (s : StatusPayload) : List StatusPayload :=
  if l.any (fun x => x.id = s.id) then
    l.map (fun x => if x.id = s.id then s else x)
  else l ++ [s]

/-- Folding the decoded status payloads into the id-keyed map. -/
def dedupStatuses (l : List StatusPayload) : List StatusPayload :=
  l.foldl upsertStatus []

/-- The rendering order `Array.from(map.values()).sort((a, b) => a.id.localeCompare(b.id))`,
with `localeCompare` modelled by the string order. -/
def sortStatuses (l : List StatusPayload) : List StatusPayload :=
  l.mergeSort (fun a b => a.id ≤ b.id)

/-- The structured output of `parseMessageContent` (the stripped prose is
not modelled here: the claims under verification only concern the two
payload lists). -/
structure ParsedContent where
  edits : List EditPayload
  toolStatuses : List StatusPayload

/-- The decoder `parseMessageContent` from MessageList.tsx, with JSON parsing of the
two payload kinds abstracted as `π` and `σ`. -/
def parseMessageContent (π : List Char → Option EditPayload)
    (σ : List Char → Option StatusPayload) (text : List Char) : ParsedContent where
  edits := (extractDiffSpans text).filterMap π
  toolStatuses := sortStatuses (dedupStatuses ((extractToolSpans text).filterMap σ))

/-! ### Edit Ledger registration (chatStore.ts / MessageList.tsx)

The `MessageItem` effect registers each decoded proposal payload, guarded
by `edit.__proposed_edit__ && !getPendingEdit(edit.id)`;
`chatStore.addPendingEdit` appends to `pendingEdits`. -/

/-- The `status: 'pending' | 'applied' | 'rejected'` field of a `PendingEdit`. -/
inductive EditStatus where
  | pending
  | applied
  | rejected
deriving DecidableEq, Repr

/-- A ledger entry (`PendingEdit` in chatStore.ts). -/
structure PendingEdit where
  id : String
  kind : EditKind
  path : String
  originalContent : List Char
  newContent : List Char
  status : EditStatus
deriving DecidableEq, Repr

/-- The lookup `chatStore.getPendingEdit`. -/
def getPendingEdit (l : List PendingEdit) (i : String) : Option PendingEdit :=
  l.find? (fun e => e.id = i)

/-- The `PendingEdit` built by the `MessageItem` registration effect. -/
def toPendingEdit (e : EditPayload) : PendingEdit where
  id := e.id
  kind := e.kind
  path := e.path
  originalContent := e.originalContent
  newContent := e.newContent
  status := EditStatus.pending

/-- One step of the registration effect: add the payload when it carries
the proposal flag and its id is not registered yet; otherwise do nothing. -/
def registerEdit (l : List PendingEdit) (e : EditPayload) : List PendingEdit :=
  if e.proposed && (getPendingEdit l e.id).isNone then l ++ [toPendingEdit e]
  else l

/-- Registering every decoded proposal payload in decode order. -/
def registerEdits (l : List PendingEdit) (es : List EditPayload) : List PendingEdit :=
  es.foldl registerEdit l

/-! ### Properties of the status map and of registration -/

/-- A simple concrete proposal parser used to exercise the decoder. -/
def sampleEditParse : List Char → Option EditPayload := fun s =>
  some { proposed := true, id := String.mk s, kind := EditKind.write,
         path := "p", relativePath := "p", originalContent := [], newContent := s }

/-- A simple concrete status parser used to exercise the decoder. -/
def sampleStatusParse : List Char → Option StatusPayload := fun s =>
  some { id := String.mk s, toolName := "t", path := "p",
         status := "running", message := "m" }

/-- A streamed chunk that ends in the middle of a proposal marker. -/
def markerDemoText : List Char := "x[TOOL_STATUS]a[/TOOL_STATUS][DIFF_BLOCK]d[/DIFF_BLO".data

/-- The continuation that completes the proposal marker. -/
def markerDemoTail : List Char := "CK]y".data

/-! ## Tool Executor — `edit_file` (`executeAITool`, electron/main.ts)

The `edit_file` case reads the file, then for each `(old_text, new_text)`
pair checks `newContent.includes(old_text)` and, if it matches, applies
`newContent.replace(old_text, new_text)` (first occurrence) and counts it.
Zero matches yield a textual warning and no proposal; otherwise a single
proposal marker is emitted, carrying the accumulated preview. -/

/-- JS `String.prototype.includes` with a literal pattern. -/
def includesSub (pat s : List Char) : Bool := (splitSub pat s).isSome

/-- JS `String.prototype.replace` with a literal pattern: replace the
first occurrence, leave the text unchanged when the pattern is absent
(`$`-substitution in the replacement is not modelled). -/
def replaceFirst (s pat rep : List Char) : List Char :=
  match splitSub pat s with
  | none => s
  | some (b, a) => b ++ rep ++ a

/-- One `{old_text, new_text}` element of the `edits` array. -/
structure EditOp where
  oldText : List Char
  newText : List Char
deriving DecidableEq, Repr

/-- The loop body of the `edit_file` case: apply the replacement and count
it when the old text occurs, otherwise skip the replacement. -/
def applyEditsStep (acc : List Char × Nat) (e : EditOp) : List Char × Nat :=
  if includesSub e.oldText acc.1 then
    (replaceFirst acc.1 e.oldText e.newText, acc.2 + 1)
  else acc

/-- The whole `for (const edit of edits)` loop: final preview and count. -/
def applyEdits (content : List Char) (edits : List EditOp) : List Char × Nat :=
  edits.foldl applyEditsStep (content, 0)

/-- The sub-sequence of replacements that actually match during the
sequential application. -/
def matchedEdits : List Char → List EditOp → List EditOp
  | _, [] => []
  | c, e :: es =>
      if includesSub e.oldText c then
        e :: matchedEdits (replaceFirst c e.oldText e.newText) es
      else matchedEdits c es

/-- Sequential application of replacements without the match guard. -/
def applyAll (content : List Char) (edits : List EditOp) : List Char :=
  edits.foldl (fun c e => replaceFirst c e.oldText e.newText) content

/-- The proposal object serialised into the `[DIFF_BLOCK]` marker. -/
structure ProposedEdit where
  id : String
  kind : EditKind
  path : String
  relativePath : String
  originalContent : List Char
  newContent : List Char
deriving DecidableEq, Repr

/-- The two possible outcomes of the `edit_file` tool: the `⚠️ No matches
found` warning text, or an encoded proposal. -/
inductive EditFileResult where
  | noMatch
  | proposal (p : ProposedEdit)
deriving DecidableEq, Repr

/-- The `edit_file` case of `executeAITool`: zero matched replacements
yield the failure text, otherwise one proposal whose `newContent` is the
in-memory preview (`editId` is the freshly allocated `edit-${Date.now()}`). -/
def editFileTool (editId : String) (fullPath relativePath : String)
    (originalContent : List Char) (edits : List EditOp) : EditFileResult :=
  if (applyEdits originalContent edits).2 = 0 then EditFileResult.noMatch
  else EditFileResult.proposal
    { id := editId, kind := EditKind.edit, path := fullPath,
      relativePath := relativePath, originalContent := originalContent,
      newContent := (applyEdits originalContent edits).1 }

/-- The proposal payload as the frontend decodes it from the marker. -/
def proposalPayload (p : ProposedEdit) : EditPayload where
  proposed := true
  id := p.id
  kind := p.kind
  path := p.path
  relativePath := p.relativePath
  originalContent := p.originalContent
  newContent := p.newContent

/-- What the `MessageItem` effect does with an `edit_file` result: a
warning registers nothing; a proposal marker goes through `registerEdit`. -/
def registerEditFileResult (store : List PendingEdit) (r : EditFileResult) :
    List PendingEdit :=
  match r with
  | EditFileResult.noMatch => store
  | EditFileResult.proposal p => registerEdit store (proposalPayload p)

/-! ## Edit Ledger — Accept/Reject (chatStore.ts, MessageList.tsx,
DiffBlock.tsx) and the commit step (`ai:applyEdit`, electron/main.ts) -/

/-- The privileged process's disk, path → content. -/
abbrev Fs := List (String × List Char)

/-- A write `fs.writeFile` (after `fs.mkdir recursive`): set the path's content. -/
def fsWrite (fs : Fs) (p : String) (c : List Char) : Fs :=
  (p, c) :: fs.filter (fun x => x.1 ≠ p)

/-- The `ai:applyEdit` IPC handler: create the parent directory, write the
file, return `true`; any error is caught and returns `false` (modelled by
the `writeOk` outcome).  Note: the handler calls `isWithinWorkspace`
nowhere — the path is written as received. -/
def applyEditHandler (writeOk : Bool) (fs : Fs) (path : String)
    (content : List Char) : Fs × Bool :=
  if writeOk then (fsWrite fs path content, true) else (fs, false)

/-- The action `chatStore.updateEditStatus`: map the status over the matching id. -/
def updateEditStatus (l : List PendingEdit) (i : String) (st : EditStatus) :
    List PendingEdit :=
  l.map (fun e => if e.id = i then { e with status := st } else e)

/-- The handler `handleAcceptEdit` (MessageList.tsx): call `applyEdit`; only on a
`true` result mark the ledger entry `applied`. -/
def handleAcceptEdit (writeOk : Bool) (st : List PendingEdit) (fs : Fs)
    (editId path : String) (content : List Char) : List PendingEdit × Fs :=
  let r := applyEditHandler writeOk fs path content
  (if r.2 then updateEditStatus st editId EditStatus.applied else st, r.1)

/-- The handler `handleRejectEdit` (MessageList.tsx): mark `rejected`; no disk call. -/
def handleRejectEdit (st : List PendingEdit) (editId : String) :
    List PendingEdit :=
  updateEditStatus st editId EditStatus.rejected

/-- The component `DiffBlock` renders the Accept/Reject buttons only when the ledger
entry is neither `applied` nor `rejected` (for those it renders the static
`Applied changes`/`Rejected changes` card instead, so no click can occur). -/
def diffBlockInteractive (st : List PendingEdit) (editId : String) : Bool :=
  match getPendingEdit st editId with
  | some e => !(e.status == EditStatus.applied) && !(e.status == EditStatus.rejected)
  | none => true

/-- An Accept click as it can actually occur through the UI. -/
def uiAcceptClick (writeOk : Bool) (st : List PendingEdit) (fs : Fs)
    (editId path : String) (content : List Char) : List PendingEdit × Fs :=
  if diffBlockInteractive st editId then
    handleAcceptEdit writeOk st fs editId path content
  else (st, fs)

/-- A Reject click as it can actually occur through the UI. -/
def uiRejectClick (st : List PendingEdit) (fs : Fs) (editId : String) :
    List PendingEdit × Fs :=
  if diffBlockInteractive st editId then (handleRejectEdit st editId, fs)
  else (st, fs)

/-- A ledger with one already-applied entry, to exercise C3. -/
def demoAppliedLedger : List PendingEdit :=
  [{ id := "e1", kind := EditKind.edit, path := "p", originalContent := [],
     newContent := "n".data, status := EditStatus.applied }]

/-- A ledger with one pending entry, to exercise C4. -/
def demoPendingLedger : List PendingEdit :=
  [{ id := "e1", kind := EditKind.edit, path := "p", originalContent := [],
     newContent := "n".data, status := EditStatus.pending }]

/-! ## Agent Orchestrator — provider-facing turns (`ai:sendMessage`,
electron/main.ts; `getConversationHistory`, chatStore.ts)

Within one request, tool-status markers are appended only to the UI-facing
`fullText`, and a `[DIFF_BLOCK]`-bearing tool result is replaced by a short
acknowledgment before entering `toolResults`.  But the renderer stores the
streamed `fullText` — markers included — as the model message's `text`
(`updateMessage` on each `ai:chunk`), and `getConversationHistory` replays
`m.text` verbatim into the `conversationHistory` argument, which
`ai:sendMessage` pushes unchanged into `apiMessages`. -/

/-- The `Message.role` values in the renderer store. -/
inductive MsgRole where
  | user
  | model
deriving DecidableEq, Repr

/-- One stored chat message (`Message` in types.ts): id, role, text. -/
structure ChatMessage where
  id : String
  role : MsgRole
  text : List Char
deriving DecidableEq, Repr

/-- Roles of the provider API messages. -/
inductive ApiRole where
  | user
  | assistant
deriving DecidableEq, Repr

/-- JS `String.prototype.trim` whitespace (the characters relevant here). -/
def isWsChar (c : Char) : Bool := c = ' ' || c = '\n' || c = '\t' || c = '\r'

/-- JS `String.prototype.trim`. -/
def trimChars (l : List Char) : List Char :=
  ((l.dropWhile isWsChar).reverse.dropWhile isWsChar).reverse

/-- The getter `chatStore.getConversationHistory`: drop the welcome message and blank
messages, map `model` to `assistant`, and pass `m.text` verbatim. -/
def getConversationHistory (messages : List ChatMessage) :
    List (ApiRole × List Char) :=
  (messages.filter (fun m => (m.id != "welcome") && !(trimChars m.text).isEmpty)).map
    (fun m => (match m.role with
      | MsgRole.model => ApiRole.assistant
      | MsgRole.user => ApiRole.user, m.text))

/-- The handler `ai:sendMessage` assembling `apiMessages`: prior history first, then
the current user message (text-only case). -/
def buildApiMessages (history : List (ApiRole × List Char))
    (current : List Char) : List (ApiRole × List Char) :=
  history ++ [(ApiRole.user, current)]

/-- A text contains in-band marker syntax. -/
def containsMarker (s : List Char) : Bool :=
  includesSub toolOpen s || includesSub diffOpen s

/-- The acknowledgment fed to the provider in place of a proposal body. -/
def editAckText : List Char :=
  "Edit proposed successfully. The user will review and accept/reject the changes.".data

/-- The `tool_result` content construction of `ai:sendMessage`: the
acknowledgment when the result carries a `[DIFF_BLOCK]` marker, the raw
result otherwise. -/
def toolResultContent (result : List Char) : List Char :=
  if includesSub diffOpen result then editAckText else result

/-- A stored session whose saved assistant turn carries a status marker,
exactly as `updateMessage` leaves it after streaming. -/
def demoMessages : List ChatMessage :=
  [{ id := "welcome", role := MsgRole.model, text := "Hi there.".data },
   { id := "1", role := MsgRole.user, text := "hi".data },
   { id := "2", role := MsgRole.model,
     text := "ok [TOOL_STATUS]s[/TOOL_STATUS]".data }]

/-! ## Tree Store — external change suppression (`handleFsChange`,
workspaceStore.ts)

`handleFsChange` suppresses a notification when `editingNodeId` is set or
when `tree.some(n => n._isNew) || tree.some(n => n.children?.some(c =>
c._isNew))` — the `_isNew` check inspects only the top level and the
immediate children of top-level nodes.  Otherwise it (re)schedules a
300 ms-debounced refresh of `getParentPath(changedPath)`. -/

/-- A `FileNode` of the workspace store: path, folder flag, the `_isNew`
creation marker, and optionally loaded children. -/
inductive WsNode where
  | mk (path : String) (isFolder : Bool) (isNew : Bool)
      (children : Option (List WsNode))

/-- The `_isNew` flag. -/
def WsNode.isNew : WsNode → Bool
  | WsNode.mk _ _ b _ => b

/-- The optional `children` array. -/
def WsNode.childList : WsNode → Option (List WsNode)
  | WsNode.mk _ _ _ c => c

/-- The check `handleFsChange` actually performs: a temp node at the top
level or among the immediate children of a top-level node. -/
def hasTempShallow (tree : List WsNode) : Bool :=
  tree.any (fun n => n.isNew) ||
    tree.any (fun n => (n.childList.getD []).any (fun c => c.isNew))

mutual
/-- A temp node anywhere in the subtree (what the spec sentence says). -/
def deepHasNew : WsNode → Bool
  | WsNode.mk _ _ isNew children => isNew || deepHasNewOpt children

def deepHasNewOpt : Option (List WsNode) → Bool
  | none => false
  | some l => deepHasNewList l

def deepHasNewList : List WsNode → Bool
  | [] => false
  | c :: cs => deepHasNew c || deepHasNewList cs
end

/-- JS `String.prototype.split` with a single-character separator. -/
def splitChar (sep : Char) : List Char → List (List Char)
  | [] => [[]]
  | c :: cs =>
      if c = sep then [] :: splitChar sep cs
      else
        match splitChar sep cs with
        | [] => [[c]]
        | g :: gs => (c :: g) :: gs

/-- JS `Array.prototype.join` with a single-character separator. -/
def joinChar (sep : Char) : List (List Char) → List Char
  | [] => []
  | [g] => g
  | g :: gs => g ++ sep :: joinChar sep gs

/-- The helper `getParentPath` from workspaceStore.ts: normalise separators, split on
`/`, drop the last segment, re-join. -/
def getParentPath (filePath : String) : String :=
  String.mk (joinChar '/'
    ((splitChar '/' (filePath.data.map (fun c => if c = '\\' then '/' else c))).dropLast))

/-- The decision `handleFsChange` makes: `none` when the notification is
suppressed, otherwise the folder whose refresh is (re)scheduled. -/
def handleFsChange (editingNodeId : Option String) (tree : List WsNode)
    (changedPath : String) : Option String :=
  if editingNodeId.isSome || hasTempShallow tree then none
  else some (getParentPath changedPath)

/-- A tree whose only `_isNew` node sits at depth three: inside the
children of a child of a top-level folder. -/
def deepTempTree : List WsNode :=
  [WsNode.mk "a" true false (some
    [WsNode.mk "a/b" true false (some
      [WsNode.mk "__temp_file_1" false true none])])]

/-! ## File-system handlers — `fs:readFile` and `readDirSafe`
(electron/main.ts) -/

/-- What `fs.stat` + `fs.readFile` deliver for one file. -/
structure FileStat where
  content : List Char
  size : Nat
deriving DecidableEq

/-- The `fs:readFile` IPC handler: guard, 10 MB stat check, then read. -/
def fsReadFile (ρ : String → String) (root : Option String)
    (files : String → Option FileStat) (path : String) :
    Except String (List Char) :=
  if ¬ isWithinWorkspace ρ root path then
    Except.error "Access denied: path outside workspace"
  else
    match files path with
    | none => Except.error "ENOENT"
    | some f =>
        if f.size > 10 * 1024 * 1024 then
          Except.error "File too large (>10MB). Please open smaller files."
        else Except.ok f.content

/-- A two-file workspace exercising both sides of the size limit. -/
def demoFiles : String → Option FileStat := fun p =>
  if p = "/w/a.txt" then some { content := "abc".data, size := 3 }
  else if p = "/w/big.bin" then some { content := [], size := 10485761 }
  else none

/-- One `fs.readdir(…, withFileTypes)` entry. -/
structure DirEntry where
  name : String
  isDir : Bool

/-- One `FileNode` as returned to the tree. -/
structure DirNode where
  id : String
  name : String
  path : String
  isFolder : Bool

/-- The join `path.join(dirPath, name)` for plain names. -/
def pathJoin (d n : String) : String := d ++ "/" ++ n

/-- The sort comparator of `readDirSafe`: folders before files, then by
name (`localeCompare` modelled by the string order). -/
def nodeLe (a b : DirNode) : Bool :=
  (a.isFolder && !b.isFolder) || ((a.isFolder == b.isFolder) && a.name ≤ b.name)

/-- The listing `readDirSafe`: list the directory, hide dotfiles, map to nodes, sort
folders-first-then-name; any read error (`listing = none`) yields `[]`. -/
def readDirSafe (dirPath : String) (listing : Option (List DirEntry)) :
    List DirNode :=
  match listing with
  | none => []
  | some entries =>
      ((entries.filter (fun e => !(e.name.startsWith "."))).map (fun e =>
        { id := pathJoin dirPath e.name, name := e.name,
          path := pathJoin dirPath e.name, isFolder := e.isDir })).mergeSort nodeLe

/-- Lowercasing a character other than the backslash never yields the
backslash (A–Z shift down into a–z, which excludes code point 92). -/
theorem toLower_eq_backslash {c : Char} (h : c.toLower = '\\') : c = '\\' := by
  have h' : (if c.toNat ≥ 65 ∧ c.toNat ≤ 90 then Char.ofNat (c.toNat + 32) else c) = '\\' := h
  by_cases hc : c.toNat ≥ 65 ∧ c.toNat ≤ 90
  · exfalso
    rw [if_pos hc] at h'
    obtain ⟨h65, h90⟩ := hc
    have hgen : ∀ m : ℕ, 65 ≤ m → m ≤ 90 → Char.ofNat (m + 32) ≠ '\\' := by
      intro m hl hu
      interval_cases m <;> decide
    exact hgen c.toNat h65 h90 h'
  · rwa [if_neg hc] at h'

/-- Case folding and separator normalisation commute character by
character: folding never produces or consumes a backslash. -/
theorem sepChar_foldChar (c : Char) : sepChar (foldChar c) = foldChar (sepChar c) := by
  unfold sepChar foldChar
  by_cases h : c = '\\'
  · subst h; decide
  · rw [if_neg h]
    by_cases h2 : c.toLower = '\\'
    · exact absurd (toLower_eq_backslash h2) h
    · rw [if_neg h2]

/-- The two normalisation orders produce the same character list. -/
theorem normalizePath_eq_specNorm (ρ : String → String) (p : String) :
    normalizePath ρ p = ((ρ p).data.map sepChar).map foldChar := by
  unfold normalizePath
  rw [List.map_map, List.map_map]
  exact List.map_congr_left fun c _ => sepChar_foldChar c

/-- C2: the guard returns `false` whenever no workspace root is set, and in
general it agrees with the spec's description — prefix containment of the
absolute, separator-normalized, case-folded forms of target and root. -/
theorem isWithinWorkspace_spec (ρ : String → String) (root : Option String)
    (p : String) :
    isWithinWorkspace ρ none p = false ∧
    isWithinWorkspace ρ root p = isWithinRootSpec ρ root p := by
  refine ⟨rfl, ?_⟩
  cases root with
  | none => rfl
  | some w =>
      show (normalizePath ρ w).isPrefixOf (normalizePath ρ p) =
        (((ρ w).data.map sepChar).map foldChar).isPrefixOf
          (((ρ p).data.map sepChar).map foldChar)
      rw [normalizePath_eq_specNorm, normalizePath_eq_specNorm]

/-- A successful `splitSub` decomposes the text around the pattern. -/
theorem splitSub_some {pat : List Char} :
    ∀ {s b a : List Char}, splitSub pat s = some (b, a) → s = b ++ pat ++ a := by
  intro s
  induction s with
  | nil =>
      intro b a h
      simp only [splitSub] at h
      by_cases hp : pat.isPrefixOf ([] : List Char)
      · rw [if_pos hp] at h
        injection h with h
        injection h with hb ha
        subst hb; subst ha
        have hpre : pat <+: ([] : List Char) := List.isPrefixOf_iff_prefix.mp hp
        have : pat = [] := List.prefix_nil.mp hpre
        simp [this]
      · rw [if_neg hp] at h; cases h
  | cons c rest ih =>
      intro b a h
      simp only [splitSub] at h
      by_cases hp : pat.isPrefixOf (c :: rest)
      · rw [if_pos hp] at h
        injection h with h
        injection h with hb ha
        subst hb; subst ha
        have hpre : pat <+: (c :: rest) := List.isPrefixOf_iff_prefix.mp hp
        have := List.prefix_iff_eq_append.mp hpre
        simp only [List.nil_append]
        exact this.symm
      · rw [if_neg hp] at h
        cases hsp : splitSub pat rest with
        | none => rw [hsp] at h; cases h
        | some ba =>
            obtain ⟨b', a'⟩ := ba
            rw [hsp] at h
            injection h with h
            injection h with hb ha
            subst hb; subst ha
            rw [ih hsp]
            rfl

/-- Appending more text to the right of a successful `splitSub` leaves the
decomposition point unchanged: the suffix lands after the occurrence. -/
theorem splitSub_append {pat : List Char} :
    ∀ {s b a : List Char}, splitSub pat s = some (b, a) →
      ∀ t, splitSub pat (s ++ t) = some (b, a ++ t) := by
  intro s
  induction s with
  | nil =>
      intro b a h t
      simp only [splitSub] at h
      by_cases hp : pat.isPrefixOf ([] : List Char)
      · rw [if_pos hp] at h
        injection h with h
        injection h with hb ha
        subst hb; subst ha
        have hpre : pat <+: ([] : List Char) := List.isPrefixOf_iff_prefix.mp hp
        have hpat : pat = [] := List.prefix_nil.mp hpre
        subst hpat
        cases t with
        | nil => rfl
        | cons c r =>
            simp only [List.nil_append, splitSub]
            rw [if_pos (by simp [List.isPrefixOf])]
            rfl
      · rw [if_neg hp] at h; cases h
  | cons c rest ih =>
      intro b a h t
      simp only [splitSub] at h
      by_cases hp : pat.isPrefixOf (c :: rest)
      · rw [if_pos hp] at h
        injection h with h
        injection h with hb ha
        subst hb; subst ha
        have hpre : pat <+: (c :: rest) := List.isPrefixOf_iff_prefix.mp hp
        have hlen : pat.length ≤ (c :: rest).length := hpre.length_le
        have hp2 : pat.isPrefixOf (c :: (rest ++ t)) := by
          have := List.isPrefixOf_iff_prefix.mpr (hpre.trans (List.prefix_append _ t))
          simpa using this
        show splitSub pat (c :: (rest ++ t)) = _
        simp only [splitSub]
        rw [if_pos hp2]
        rw [show c :: (rest ++ t) = (c :: rest) ++ t from rfl,
          List.drop_append_of_le_length hlen]
      · rw [if_neg hp] at h
        cases hsp : splitSub pat rest with
        | none => rw [hsp] at h; cases h
        | some ba =>
            obtain ⟨b', a'⟩ := ba
            rw [hsp] at h
            injection h with h
            injection h with hb ha
            subst hb; subst ha
            have hlen : pat.length ≤ rest.length := by
              have := splitSub_some hsp
              rw [this]; simp; omega
            have hpnot : ¬ pat.isPrefixOf (c :: (rest ++ t)) := by
              intro hyes
              apply hp
              have hyes' : pat <+: ((c :: rest) ++ t) := by
                have := List.isPrefixOf_iff_prefix.mp hyes
                simpa using this
              have hle : pat.length ≤ (c :: rest).length := by
                simp only [List.length_cons]; omega
              have htake : pat = ((c :: rest) ++ t).take pat.length :=
                List.prefix_iff_eq_take.mp hyes'
              rw [List.take_append_of_le_length hle] at htake
              refine List.isPrefixOf_iff_prefix.mpr ?_
              rw [htake]
              exact List.take_prefix _ _
            show splitSub pat (c :: (rest ++ t)) = _
            simp only [splitSub]
            rw [if_neg hpnot, ih hsp t]

/-- A nonempty pattern never occurs in the empty text. -/
theorem splitSub_nil_of_ne {cls : List Char} (hcls : cls ≠ []) :
    splitSub cls [] = none := by
  show (if cls.isPrefixOf ([] : List Char) then some (([] : List Char), ([] : List Char))
    else none) = none
  rw [if_neg]
  intro h
  exact hcls (List.prefix_nil.mp (List.isPrefixOf_iff_prefix.mp h))

theorem extractAux_succ_none₁ {opn cls s : List Char} {f : Nat}
    (hop : splitSub opn s = none) :
    extractAux opn cls (f + 1) s = [] := by
  simp [extractAux, hop]

theorem extractAux_succ_none₂ {opn cls s b rest1 : List Char} {f : Nat}
    (hop : splitSub opn s = some (b, rest1))
    (hcl : splitSub cls rest1 = none) :
    extractAux opn cls (f + 1) s = [] := by
  simp [extractAux, hop, hcl]

theorem extractAux_succ_cons {opn cls s b rest1 payload rest2 : List Char}
    {f : Nat} (hop : splitSub opn s = some (b, rest1))
    (hcl : splitSub cls rest1 = some (payload, rest2)) :
    extractAux opn cls (f + 1) s = payload :: extractAux opn cls f rest2 := by
  simp [extractAux, hop, hcl]

/-- With a nonempty closing delimiter the scan of the empty text finds
nothing, whatever the fuel. -/
theorem extractAux_nil {opn cls : List Char} (hcls : cls ≠ []) (f : Nat) :
    extractAux opn cls f [] = [] := by
  cases f with
  | zero => rfl
  | succ f =>
      cases hop : splitSub opn ([] : List Char) with
      | none => exact extractAux_succ_none₁ hop
      | some br =>
          obtain ⟨b, r1⟩ := br
          have h0 := (splitSub_some hop).symm
          have hr1 : r1 = [] := by
            simp only [List.append_eq_nil] at h0
            tauto
          subst hr1
          exact extractAux_succ_none₂ hop (splitSub_nil_of_ne hcls)

/-- Any fuel of at least the text length yields the same scan result. -/
theorem extractAux_congr {opn cls : List Char} (hcls : cls ≠ []) :
    ∀ k n m : Nat, ∀ s : List Char, s.length ≤ k → s.length ≤ n → s.length ≤ m →
      extractAux opn cls n s = extractAux opn cls m s := by
  intro k
  induction k with
  | zero =>
      intro n m s hk _ _
      have hs0 : s = [] := List.length_eq_zero.mp (Nat.le_zero.mp hk)
      subst hs0
      rw [extractAux_nil hcls, extractAux_nil hcls]
  | succ k ih =>
      intro n m s hk hn hm
      cases s with
      | nil => rw [extractAux_nil hcls, extractAux_nil hcls]
      | cons c cs =>
          obtain ⟨n', rfl⟩ : ∃ n', n = n' + 1 :=
            ⟨n - 1, by simp only [List.length_cons] at hn; omega⟩
          obtain ⟨m', rfl⟩ : ∃ m', m = m' + 1 :=
            ⟨m - 1, by simp only [List.length_cons] at hm; omega⟩
          cases hop : splitSub opn (c :: cs) with
          | none =>
              rw [extractAux_succ_none₁ hop, extractAux_succ_none₁ hop]
          | some br =>
              obtain ⟨b, r1⟩ := br
              cases hcl : splitSub cls r1 with
              | none =>
                  rw [extractAux_succ_none₂ hop hcl, extractAux_succ_none₂ hop hcl]
              | some pr =>
                  obtain ⟨p, r2⟩ := pr
                  rw [extractAux_succ_cons hop hcl, extractAux_succ_cons hop hcl]
                  have e1 := splitSub_some hop
                  have e2 := splitSub_some hcl
                  have hc : 0 < cls.length := List.length_pos.mpr hcls
                  have hlen : r2.length + 1 ≤ (c :: cs).length := by
                    rw [e1, e2]; simp; omega
                  simp only [List.length_cons] at hk hn hm hlen
                  exact congrArg (p :: ·) (ih n' m' r2 (by omega) (by omega) (by omega))

/-- Unfolding lemma: no opening delimiter, no payloads. -/
theorem extractBetween_none₁ {opn cls : List Char}
    {s : List Char} (h : splitSub opn s = none) :
    extractBetween opn cls s = [] := by
  unfold extractBetween
  cases s with
  | nil => rfl
  | cons c cs => exact extractAux_succ_none₁ h

/-- Unfolding lemma: opening delimiter present, closing one missing. -/
theorem extractBetween_none₂ {opn cls : List Char}
    {s b rest1 : List Char} (h1 : splitSub opn s = some (b, rest1))
    (h2 : splitSub cls rest1 = none) :
    extractBetween opn cls s = [] := by
  unfold extractBetween
  cases s with
  | nil => rfl
  | cons c cs => exact extractAux_succ_none₂ h1 h2

/-- Unfolding lemma: a complete delimiter pair yields its payload and the
scan continues after the closing delimiter. -/
theorem extractBetween_cons {opn cls : List Char} (hcls : cls ≠ [])
    {s b rest1 payload rest2 : List Char}
    (h1 : splitSub opn s = some (b, rest1))
    (h2 : splitSub cls rest1 = some (payload, rest2)) :
    extractBetween opn cls s =
      payload :: extractBetween opn cls rest2 := by
  cases s with
  | nil =>
      exfalso
      have h0 := (splitSub_some h1).symm
      have hr1 : rest1 = [] := by
        simp only [List.append_eq_nil] at h0
        tauto
      subst hr1
      rw [splitSub_nil_of_ne hcls] at h2
      cases h2
  | cons c cs =>
      unfold extractBetween
      rw [List.length_cons, extractAux_succ_cons h1 h2]
      refine congrArg (payload :: ·) ?_
      have e1 := splitSub_some h1
      have e2 := splitSub_some h2
      have hc : 0 < cls.length := List.length_pos.mpr hcls
      have hlen : rest2.length ≤ cs.length := by
        have hl1 := congrArg List.length e1
        have hl2 := congrArg List.length e2
        simp at hl1 hl2
        omega
      exact extractAux_congr hcls cs.length cs.length rest2.length rest2 hlen hlen
        (le_refl _)

/-- Decoding a longer stream re-produces every payload decoded from the
shorter stream, in order, followed only by newly completed payloads. -/
theorem extractBetween_append_self {opn cls : List Char} (hcls : cls ≠ []) :
    ∀ s t : List Char,
      extractBetween opn cls s <+: extractBetween opn cls (s ++ t) := by
  have main : ∀ n, ∀ s : List Char, s.length ≤ n → ∀ t : List Char,
      extractBetween opn cls s <+: extractBetween opn cls (s ++ t) := by
    intro n
    induction n with
    | zero =>
        intro s hs t
        have hs0 : s = [] := List.length_eq_zero.mp (Nat.le_zero.mp hs)
        subst hs0
        cases h1 : splitSub opn ([] : List Char) with
        | none => rw [extractBetween_none₁ h1]; exact List.nil_prefix
        | some br =>
            obtain ⟨b1, rest1⟩ := br
            have e1 := splitSub_some h1
            have hr : rest1 = [] := by
              cases rest1 with
              | nil => rfl
              | cons x xs => simp at e1
            subst hr
            rw [extractBetween_none₂ h1 (splitSub_nil_of_ne hcls)]
            exact List.nil_prefix
    | succ n ih =>
        intro s hs t
        cases h1 : splitSub opn s with
        | none => rw [extractBetween_none₁ h1]; exact List.nil_prefix
        | some br =>
            obtain ⟨b1, rest1⟩ := br
            cases h2 : splitSub cls rest1 with
            | none => rw [extractBetween_none₂ h1 h2]; exact List.nil_prefix
            | some pr =>
                obtain ⟨payload, rest2⟩ := pr
                have h1' := splitSub_append h1 t
                have h2' := splitSub_append h2 (t := t)
                rw [extractBetween_cons hcls h1 h2, extractBetween_cons hcls h1' h2']
                refine List.cons_prefix_cons.mpr ⟨rfl, ?_⟩
                have e1 := splitSub_some h1
                have e2 := splitSub_some h2
                have hc : 0 < cls.length := List.length_pos.mpr hcls
                have hlt : rest2.length ≤ n := by
                  have hslen : s.length = b1.length + opn.length +
                      (payload.length + cls.length + rest2.length) := by
                    rw [e1, e2]; simp; omega
                  omega
                exact ih rest2 hlt t
  intro s t
  exact main s.length s (le_refl _) t

theorem diffClose_ne_nil : diffClose ≠ [] := by decide

theorem toolClose_ne_nil : toolClose ≠ [] := by decide

theorem ids_upsertStatus (l : List StatusPayload) (s : StatusPayload) :
    (upsertStatus l s).map (fun x => x.id) =
      if l.any (fun x => x.id = s.id) then l.map (fun x => x.id)
      else l.map (fun x => x.id) ++ [s.id] := by
  unfold upsertStatus
  by_cases h : l.any (fun x => x.id = s.id)
  · rw [if_pos h, if_pos h, List.map_map]
    refine List.map_congr_left ?_
    intro x _
    by_cases hx : x.id = s.id
    · simp [hx]
    · simp [hx]
  · rw [if_neg h, if_neg h, List.map_append]
    rfl

theorem nodup_ids_foldl_upsert (l : List StatusPayload) :
    ∀ acc : List StatusPayload, (acc.map (fun x => x.id)).Nodup →
      ((l.foldl upsertStatus acc).map (fun x => x.id)).Nodup := by
  induction l with
  | nil => intro acc h; exact h
  | cons e rest ih =>
      intro acc h
      refine ih (upsertStatus acc e) ?_
      rw [ids_upsertStatus]
      by_cases hp : acc.any (fun x => x.id = e.id)
      · rw [if_pos hp]; exact h
      · rw [if_neg hp]
        rw [List.nodup_append]
        refine ⟨h, List.nodup_singleton _, ?_⟩
        intro i hi hie
        have : i = e.id := by simpa using hie
        subst this
        obtain ⟨x, hxmem, hxid⟩ := List.mem_map.mp hi
        have : acc.any (fun x => x.id = e.id) := by
          rw [List.any_eq_true]
          exact ⟨x, hxmem, by simp [hxid]⟩
        exact hp this

/-- No two entries of the decoded status list share an id. -/
theorem nodup_ids_dedupStatuses (l : List StatusPayload) :
    ((dedupStatuses l).map (fun x => x.id)).Nodup :=
  nodup_ids_foldl_upsert l [] (by simp)

theorem any_id_upsertStatus (acc : List StatusPayload) (e : StatusPayload)
    (i : String) :
    (upsertStatus acc e).any (fun x => x.id = i) = true ↔
      (acc.any (fun x => x.id = i) = true ∨ e.id = i) := by
  unfold upsertStatus
  by_cases hp : acc.any (fun x => x.id = e.id) = true
  · rw [if_pos hp]
    simp only [List.any_eq_true, List.mem_map, decide_eq_true_eq] at hp ⊢
    constructor
    · rintro ⟨y, ⟨x, hx, rfl⟩, hy⟩
      by_cases hxe : x.id = e.id
      · right; simpa [hxe] using hy
      · left; exact ⟨x, hx, by simpa [hxe] using hy⟩
    · rintro (⟨x, hx, hxi⟩ | hei)
      · by_cases hxe : x.id = e.id
        · obtain rfl : e.id = i := hxe ▸ hxi
          exact ⟨e, ⟨x, hx, by simp [hxe]⟩, rfl⟩
        · exact ⟨x, ⟨x, hx, by simp [hxe]⟩, hxi⟩
      · obtain ⟨x, hx, hxe⟩ := hp
        exact ⟨e, ⟨x, hx, by simp [hxe]⟩, hei⟩
  · rw [if_neg hp]
    simp [List.any_append]

theorem any_id_foldl_upsert (l : List StatusPayload) :
    ∀ acc : List StatusPayload, ∀ i : String,
      ((l.foldl upsertStatus acc).any (fun x => x.id = i) = true ↔
        (acc.any (fun x => x.id = i) = true ∨ l.any (fun x => x.id = i) = true)) := by
  induction l with
  | nil => intro acc i; simp
  | cons e rest ih =>
      intro acc i
      show (rest.foldl upsertStatus (upsertStatus acc e)).any _ = true ↔ _
      rw [ih, any_id_upsertStatus]
      simp only [List.any_cons, Bool.or_eq_true, decide_eq_true_eq]
      tauto

/-- An element of the map after an upsert is either the upserted payload or
an untouched entry with a different id. -/
theorem mem_upsertStatus {L : List StatusPayload} {e s : StatusPayload}
    (h : s ∈ upsertStatus L e) : s = e ∨ (s ∈ L ∧ s.id ≠ e.id) := by
  unfold upsertStatus at h
  by_cases hp : L.any (fun x => x.id = e.id) = true
  · rw [if_pos hp] at h
    obtain ⟨x, hx, hfx⟩ := List.mem_map.mp h
    by_cases hxe : x.id = e.id
    · left; rw [← hfx]; simp [hxe]
    · right
      have hsx : s = x := by rw [← hfx]; simp [hxe]
      subst hsx
      exact ⟨hx, hxe⟩
  · rw [if_neg hp] at h
    rcases List.mem_append.mp h with hL | he
    · right
      refine ⟨hL, fun heq => hp ?_⟩
      rw [List.any_eq_true]
      exact ⟨s, hL, by simp [heq]⟩
    · left; simpa using he

/-- Each id in the decoded status map carries the payload of the LAST
occurrence of that id in the raw decode order (`Map.set` overwrites). -/
theorem dedupStatuses_latest {l : List StatusPayload} {s : StatusPayload}
    (h : s ∈ dedupStatuses l) :
    l.reverse.find? (fun x => x.id = s.id) = some s := by
  induction l using List.reverseRecOn with
  | nil => simp [dedupStatuses] at h
  | append_singleton init e ih =>
      rw [dedupStatuses, List.foldl_append] at h
      simp only [List.foldl_cons, List.foldl_nil] at h
      rw [List.reverse_append, List.reverse_singleton, List.singleton_append]
      rcases mem_upsertStatus h with rfl | ⟨hmem, hne⟩
      · simp [List.find?]
      · have hd : (decide (e.id = s.id)) = false := by simp [Ne.symm hne]
        rw [List.find?_cons, hd]
        exact ih hmem

theorem getPendingEdit_registerEdit_mono {l : List PendingEdit}
    {e : EditPayload} {i : String} (h : (getPendingEdit l i).isSome = true) :
    (getPendingEdit (registerEdit l e) i).isSome = true := by
  simp only [registerEdit, getPendingEdit] at h ⊢
  split
  · rw [List.find?_append]
    cases hf : l.find? (fun x => decide (x.id = i)) with
    | none => rw [hf] at h; cases h
    | some v => simp [Option.or]
  · exact h

theorem getPendingEdit_registerEdit_self {l : List PendingEdit}
    {e : EditPayload} (hp : e.proposed = true) :
    (getPendingEdit (registerEdit l e) e.id).isSome = true := by
  unfold registerEdit
  by_cases hn : (getPendingEdit l e.id).isNone = true
  · rw [if_pos (by rw [Bool.and_eq_true]; exact ⟨hp, hn⟩)]
    simp only [getPendingEdit]
    rw [List.find?_append]
    cases hf : l.find? (fun x => decide (x.id = e.id)) with
    | none =>
        simp only [Option.or]
        simp [List.find?, toPendingEdit]
    | some v => simp [Option.or]
  · rw [if_neg (by rw [Bool.and_eq_true]; exact fun hc => hn hc.2)]
    cases hf : getPendingEdit l e.id with
    | none => exact absurd (by rw [hf]; rfl) hn
    | some v => rfl

theorem getPendingEdit_registerEdits_mono {es : List EditPayload} :
    ∀ {l : List PendingEdit} {i : String},
      (getPendingEdit l i).isSome = true →
      (getPendingEdit (registerEdits l es) i).isSome = true := by
  induction es with
  | nil => intro l i h; exact h
  | cons e rest ih =>
      intro l i h
      exact ih (getPendingEdit_registerEdit_mono h)

theorem getPendingEdit_registerEdits_present {es : List EditPayload}
    {e : EditPayload} (he : e ∈ es) (hp : e.proposed = true) :
    ∀ {l : List PendingEdit},
      (getPendingEdit (registerEdits l es) e.id).isSome = true := by
  induction es with
  | nil => cases he
  | cons a rest ih =>
      intro l
      show (getPendingEdit (registerEdits (registerEdit l a) rest) e.id).isSome = true
      rcases List.mem_cons.mp he with rfl | hmem
      · exact getPendingEdit_registerEdits_mono
          (getPendingEdit_registerEdit_self hp)
      · exact ih hmem

/-- Registration of payloads whose ids are all already in the ledger is a
no-op on the ledger. -/
theorem registerEdits_noop {es : List EditPayload} :
    ∀ {l : List PendingEdit},
      (∀ e ∈ es, e.proposed = true → (getPendingEdit l e.id).isSome = true) →
      registerEdits l es = l := by
  induction es with
  | nil => intro l _; rfl
  | cons a rest ih =>
      intro l h
      have hstep : registerEdit l a = l := by
        unfold registerEdit
        rw [if_neg]
        intro hcond
        rw [Bool.and_eq_true] at hcond
        have hs := h a (List.mem_cons_self a rest) hcond.1
        have hn := hcond.2
        rw [Option.isNone_iff_eq_none] at hn
        rw [hn] at hs
        cases hs
      show registerEdits (registerEdit l a) rest = l
      rw [hstep]
      exact ih fun e he hp => h e (List.mem_cons_of_mem a he) hp

/-- Re-running the registration effect over the decoded payloads of the
shorter stream, then over those of the longer one, leaves exactly the
ledger produced by registering the longer decode alone. -/
theorem registerEdits_of_decode_extension {es₁ es₂ : List EditPayload}
    (h : es₁ <+: es₂) (l : List PendingEdit) :
    registerEdits (registerEdits l es₁) es₂ = registerEdits l es₂ := by
  obtain ⟨r, rfl⟩ := h
  have hidem : registerEdits (registerEdits l es₁) es₁ = registerEdits l es₁ :=
    registerEdits_noop fun e he hp => getPendingEdit_registerEdits_present he hp
  show List.foldl registerEdit _ (es₁ ++ r) = List.foldl registerEdit _ (es₁ ++ r)
  rw [List.foldl_append, List.foldl_append]
  show registerEdits (registerEdits (registerEdits l es₁) es₁) r =
    registerEdits (registerEdits l es₁) r
  rw [hidem]

/-- Registration never duplicates an id in the ledger. -/
theorem nodup_ids_registerEdit {l : List PendingEdit} {e : EditPayload}
    (h : (l.map (fun x => x.id)).Nodup) :
    ((registerEdit l e).map (fun x => x.id)).Nodup := by
  unfold registerEdit
  split
  · next hcond =>
      rw [Bool.and_eq_true] at hcond
      rw [List.map_append, List.nodup_append]
      refine ⟨h, List.nodup_singleton _, ?_⟩
      intro i hi hie
      have hie' : i = e.id := by simpa [toPendingEdit] using hie
      subst hie'
      obtain ⟨x, hxmem, hxid⟩ := List.mem_map.mp hi
      have hnone := hcond.2
      rw [Option.isNone_iff_eq_none] at hnone
      rw [getPendingEdit, List.find?_eq_none] at hnone
      exact hnone x hxmem (by simp [hxid])
  · exact h

theorem nodup_ids_registerEdits {es : List EditPayload} :
    ∀ {l : List PendingEdit}, (l.map (fun x => x.id)).Nodup →
      ((registerEdits l es).map (fun x => x.id)).Nodup := by
  induction es with
  | nil => intro l h; exact h
  | cons a rest ih => intro l h; exact ih (nodup_ids_registerEdit h)

/-- C5: decoding is idempotent under repeated partial application.
Decoding `T` and then `T ++ suffix` yields (i) the proposal payloads of the
first decode as a prefix (hence a superset by id) of the second decode's,
(ii) a status list that covers every previously seen status id, carries no
duplicate ids in either decode, and maps each id to the latest occurrence
in the raw stream, and (iii) a registration step for which re-registering
the payloads of the longer decode over those of the shorter one is a no-op:
the ledger is exactly the one obtained from the longer decode alone, with
no duplicated ids. -/
theorem parseMessageContent_idempotent
    (π : List Char → Option EditPayload) (σ : List Char → Option StatusPayload)
    (T suffix : List Char) (store : List PendingEdit) :
    ((parseMessageContent π σ T).edits <+:
      (parseMessageContent π σ (T ++ suffix)).edits) ∧
    (∀ s ∈ (parseMessageContent π σ T).toolStatuses,
      ∃ s' ∈ (parseMessageContent π σ (T ++ suffix)).toolStatuses, s'.id = s.id) ∧
    ((parseMessageContent π σ T).toolStatuses.map (fun x => x.id)).Nodup ∧
    ((parseMessageContent π σ (T ++ suffix)).toolStatuses.map (fun x => x.id)).Nodup ∧
    (∀ s ∈ (parseMessageContent π σ T).toolStatuses,
      ((extractToolSpans T).filterMap σ).reverse.find? (fun x => x.id = s.id) =
        some s) ∧
    ((store.map (fun x => x.id)).Nodup →
      ((registerEdits store (parseMessageContent π σ T).edits).map
        (fun x => x.id)).Nodup) ∧
    registerEdits (registerEdits store (parseMessageContent π σ T).edits)
        (parseMessageContent π σ (T ++ suffix)).edits =
      registerEdits store (parseMessageContent π σ (T ++ suffix)).edits := by
  have hdiff : extractDiffSpans T <+: extractDiffSpans (T ++ suffix) :=
    extractBetween_append_self diffClose_ne_nil T suffix
  have htool : extractToolSpans T <+: extractToolSpans (T ++ suffix) :=
    extractBetween_append_self toolClose_ne_nil T suffix
  have hedits : (parseMessageContent π σ T).edits <+:
      (parseMessageContent π σ (T ++ suffix)).edits := by
    obtain ⟨r, hr⟩ := hdiff
    refine ⟨r.filterMap π, ?_⟩
    show (extractDiffSpans T).filterMap π ++ r.filterMap π =
      (extractDiffSpans (T ++ suffix)).filterMap π
    rw [← hr, List.filterMap_append]
  have hmem_sort : ∀ (L : List StatusPayload) (s : StatusPayload),
      s ∈ sortStatuses L ↔ s ∈ L := by
    intro L s
    exact (List.mergeSort_perm L _).mem_iff
  refine ⟨hedits, ?_, ?_, ?_, ?_, ?_, ?_⟩
  · intro s hs
    have hs1 : s ∈ dedupStatuses ((extractToolSpans T).filterMap σ) :=
      (hmem_sort _ s).mp hs
    have hany1 : ((extractToolSpans T).filterMap σ).any
        (fun x => x.id = s.id) = true := by
      have := (any_id_foldl_upsert ((extractToolSpans T).filterMap σ) [] s.id).mp
        (by rw [List.any_eq_true]; exact ⟨s, hs1, by simp⟩)
      rcases this with hfalse | h
      · cases hfalse
      · exact h
    have hany2 : ((extractToolSpans (T ++ suffix)).filterMap σ).any
        (fun x => x.id = s.id) = true := by
      obtain ⟨r, hr⟩ := htool
      rw [← hr, List.filterMap_append, List.any_append, Bool.or_eq_true]
      left
      exact hany1
    have hany3 : (dedupStatuses ((extractToolSpans (T ++ suffix)).filterMap σ)).any
        (fun x => x.id = s.id) = true :=
      (any_id_foldl_upsert _ [] s.id).mpr (Or.inr hany2)
    rw [List.any_eq_true] at hany3
    obtain ⟨s', hs', heq⟩ := hany3
    exact ⟨s', (hmem_sort _ s').mpr hs', by simpa using heq⟩
  · have hsort : ∀ L : List StatusPayload, ((L.map (fun x => x.id)).Nodup) →
        ((sortStatuses L).map (fun x => x.id)).Nodup := by
      intro L h
      unfold sortStatuses
      exact ((List.mergeSort_perm L _).symm.map (fun x => x.id)).nodup h
    exact hsort _ (nodup_ids_dedupStatuses _)
  · have hsort : ∀ L : List StatusPayload, ((L.map (fun x => x.id)).Nodup) →
        ((sortStatuses L).map (fun x => x.id)).Nodup := by
      intro L h
      unfold sortStatuses
      exact ((List.mergeSort_perm L _).symm.map (fun x => x.id)).nodup h
    exact hsort _ (nodup_ids_dedupStatuses _)
  · intro s hs
    exact dedupStatuses_latest ((hmem_sort _ s).mp hs)
  · intro hstore
    exact nodup_ids_registerEdits hstore
  · exact registerEdits_of_decode_extension hedits store

/-- Concrete check of C5 at a chunk boundary cutting a proposal marker. -/
theorem parseMessageContent_idempotent_witness :
    ((registerEdits []
        (parseMessageContent sampleEditParse sampleStatusParse markerDemoText).edits).map
      (fun x => x.id)).Nodup ∧
    registerEdits
        (registerEdits []
          (parseMessageContent sampleEditParse sampleStatusParse markerDemoText).edits)
        (parseMessageContent sampleEditParse sampleStatusParse
          (markerDemoText ++ markerDemoTail)).edits =
      registerEdits []
        (parseMessageContent sampleEditParse sampleStatusParse
          (markerDemoText ++ markerDemoTail)).edits :=
  ⟨(parseMessageContent_idempotent sampleEditParse sampleStatusParse
      markerDemoText markerDemoTail []).2.2.2.2.2.1 (by simp),
   (parseMessageContent_idempotent sampleEditParse sampleStatusParse
      markerDemoText markerDemoTail []).2.2.2.2.2.2⟩

/-- The guarded fold of `edit_file` is the unguarded fold over exactly the
matched replacements, and the count is their number. -/
theorem applyEdits_eq_matched :
    ∀ (edits : List EditOp) (c : List Char) (k : Nat),
      edits.foldl applyEditsStep (c, k) =
        (applyAll c (matchedEdits c edits),
          k + (matchedEdits c edits).length) := by
  intro edits
  induction edits with
  | nil => intro c k; simp [applyAll, matchedEdits]
  | cons e es ih =>
      intro c k
      show es.foldl applyEditsStep (applyEditsStep (c, k) e) = _
      by_cases h : includesSub e.oldText c = true
      · have hstep : applyEditsStep (c, k) e =
            (replaceFirst c e.oldText e.newText, k + 1) := by
          simp [applyEditsStep, h]
        have hmatched : matchedEdits c (e :: es) =
            e :: matchedEdits (replaceFirst c e.oldText e.newText) es := by
          show (if includesSub e.oldText c = true then
              e :: matchedEdits (replaceFirst c e.oldText e.newText) es
            else matchedEdits c es) = _
          rw [if_pos h]
        have happly : applyAll c (e :: matchedEdits
            (replaceFirst c e.oldText e.newText) es) =
          applyAll (replaceFirst c e.oldText e.newText)
            (matchedEdits (replaceFirst c e.oldText e.newText) es) := rfl
        rw [hstep, ih, hmatched, happly]
        simp only [List.length_cons, Prod.mk.injEq]
        exact ⟨trivial, by omega⟩
      · have hstep : applyEditsStep (c, k) e = (c, k) := by
          simp [applyEditsStep, h]
        have hmatched : matchedEdits c (e :: es) = matchedEdits c es := by
          show (if includesSub e.oldText c = true then
              e :: matchedEdits (replaceFirst c e.oldText e.newText) es
            else matchedEdits c es) = _
          rw [if_neg (by simpa using h)]
        rw [hstep, ih, hmatched]

/-- C6: with zero matching replacements `edit_file` returns the failure
notice and registers nothing; with at least one match it returns exactly
one proposal whose content is the sequential application of just the
matched replacements to the in-memory baseline, and registering it appends
exactly one pending ledger entry when its id is fresh. -/
theorem editFileTool_spec (editId fullPath relPath : String)
    (content : List Char) (edits : List EditOp) (store : List PendingEdit) :
    (editFileTool editId fullPath relPath content edits = EditFileResult.noMatch ↔
      matchedEdits content edits = []) ∧
    (matchedEdits content edits = [] →
      registerEditFileResult store
        (editFileTool editId fullPath relPath content edits) = store) ∧
    (∀ p, editFileTool editId fullPath relPath content edits =
        EditFileResult.proposal p →
      p.newContent = applyAll content (matchedEdits content edits) ∧
      p.originalContent = content ∧ p.id = editId ∧
      ((getPendingEdit store editId).isNone = true →
        registerEditFileResult store
            (editFileTool editId fullPath relPath content edits) =
          store ++ [toPendingEdit (proposalPayload p)])) := by
  have hfold := applyEdits_eq_matched edits content 0
  have hcount : (applyEdits content edits).2 = (matchedEdits content edits).length := by
    rw [applyEdits, hfold]
    simp
  have hcontent : (applyEdits content edits).1 =
      applyAll content (matchedEdits content edits) := by
    rw [applyEdits, hfold]
  refine ⟨?_, ?_, ?_⟩
  · constructor
    · intro h
      unfold editFileTool at h
      by_cases hz : (applyEdits content edits).2 = 0
      · rw [hcount] at hz
        exact List.length_eq_zero.mp hz
      · rw [if_neg hz] at h
        cases h
    · intro h
      unfold editFileTool
      rw [if_pos (by rw [hcount, h]; rfl)]
  · intro h
    unfold editFileTool
    rw [if_pos (by rw [hcount, h]; rfl)]
    rfl
  · intro p hp
    unfold editFileTool at hp
    by_cases hz : (applyEdits content edits).2 = 0
    · rw [if_pos hz] at hp
      cases hp
    · rw [if_neg hz] at hp
      injection hp with hp
      subst hp
      refine ⟨hcontent, rfl, rfl, ?_⟩
      intro hfresh
      unfold editFileTool
      rw [if_neg hz]
      show registerEdit store _ = _
      unfold registerEdit
      rw [if_pos]
      rw [Bool.and_eq_true]
      exact ⟨rfl, by simpa [proposalPayload] using hfresh⟩

/-- Concrete check of C6: one matching and one non-matching replacement. -/
theorem editFileTool_spec_witness :
    matchedEdits "let x = 1".data
        [⟨"let x".data, "let y".data⟩, ⟨"zzz".data, "w".data⟩] =
      [⟨"let x".data, "let y".data⟩] ∧
    registerEditFileResult []
        (editFileTool "e1" "f" "f" "let x = 1".data
          [⟨"let x".data, "let y".data⟩, ⟨"zzz".data, "w".data⟩]) =
      [{ id := "e1", kind := EditKind.edit, path := "f",
         originalContent := "let x = 1".data, newContent := "let y = 1".data,
         status := EditStatus.pending }] := by
  have hmatched : matchedEdits "let x = 1".data
      [⟨"let x".data, "let y".data⟩, ⟨"zzz".data, "w".data⟩] =
        [⟨"let x".data, "let y".data⟩] := by decide
  refine ⟨hmatched, ?_⟩
  have happ := (editFileTool_spec "e1" "f" "f" "let x = 1".data
    [⟨"let x".data, "let y".data⟩, ⟨"zzz".data, "w".data⟩] []).2.2
    { id := "e1", kind := EditKind.edit, path := "f", relativePath := "f",
      originalContent := "let x = 1".data, newContent := "let y = 1".data }
    (by decide)
  have hreg := happ.2.2.2 (by decide)
  rw [hreg]
  decide

/-- C3: `applied` and `rejected` are terminal — once a ledger entry has
left `pending`, an Accept or Reject invocation on it is a no-op: the
ledger and the disk are unchanged (the `DiffBlock` for a terminal entry
renders no buttons, so the handlers cannot fire). -/
theorem terminal_edit_noop (writeOk : Bool) (st : List PendingEdit) (fs : Fs)
    (editId path : String) (content : List Char) (e : PendingEdit)
    (he : getPendingEdit st editId = some e)
    (ht : e.status = EditStatus.applied ∨ e.status = EditStatus.rejected) :
    uiAcceptClick writeOk st fs editId path content = (st, fs) ∧
    uiRejectClick st fs editId = (st, fs) := by
  have hni : diffBlockInteractive st editId = false := by
    unfold diffBlockInteractive
    rw [he]
    show (!(e.status == EditStatus.applied) && !(e.status == EditStatus.rejected)) = false
    rcases ht with h | h <;> rw [h] <;> rfl
  constructor
  · unfold uiAcceptClick
    rw [hni]
    rfl
  · unfold uiRejectClick
    rw [hni]
    rfl

/-- Concrete check of C3 on an applied entry. -/
theorem terminal_edit_noop_witness :
    uiAcceptClick true demoAppliedLedger [] "e1" "p" "n".data =
      (demoAppliedLedger, []) ∧
    uiRejectClick demoAppliedLedger [] "e1" = (demoAppliedLedger, []) :=
  terminal_edit_noop true demoAppliedLedger [] "e1" "p" "n".data
    { id := "e1", kind := EditKind.edit, path := "p", originalContent := [],
      newContent := "n".data, status := EditStatus.applied }
    (by decide) (Or.inl rfl)

/-- C4: a failed commit (the `ai:applyEdit` handler returned `false`)
leaves the ledger entry in `pending` — nothing is marked `applied` and the
disk is untouched, so the user can retry. -/
theorem failed_commit_leaves_pending (st : List PendingEdit) (fs : Fs)
    (editId path : String) (content : List Char) (e : PendingEdit)
    (he : getPendingEdit st editId = some e) (hp : e.status = EditStatus.pending) :
    uiAcceptClick false st fs editId path content = (st, fs) ∧
    getPendingEdit (uiAcceptClick false st fs editId path content).1 editId =
      some e := by
  have h1 : uiAcceptClick false st fs editId path content = (st, fs) := by
    unfold uiAcceptClick
    by_cases hi : diffBlockInteractive st editId = true
    · rw [if_pos hi]
      unfold handleAcceptEdit applyEditHandler
      simp
    · rw [if_neg hi]
  exact ⟨h1, by rw [h1]; exact he⟩

/-- Concrete check of C4 on a pending entry with a failing write. -/
theorem failed_commit_leaves_pending_witness :
    uiAcceptClick false demoPendingLedger [] "e1" "p" "n".data =
      (demoPendingLedger, []) ∧
    getPendingEdit (uiAcceptClick false demoPendingLedger [] "e1" "p" "n".data).1
        "e1" =
      some { id := "e1", kind := EditKind.edit, path := "p",
             originalContent := [], newContent := "n".data,
             status := EditStatus.pending } :=
  failed_commit_leaves_pending demoPendingLedger [] "e1" "p" "n".data
    { id := "e1", kind := EditKind.edit, path := "p", originalContent := [],
      newContent := "n".data, status := EditStatus.pending }
    (by decide) rfl

/-- C1 (code bug): the `ai:applyEdit` commit handler performs no
`isWithinWorkspace` re-validation at all — in the model it never consults
the guard.  At a concrete target outside the workspace root the guard
evaluates to `false`, yet the handler writes the file and reports success
instead of yielding an access-denied error. -/
theorem applyEdit_commit_unguarded :
    isWithinWorkspace (fun s => s) (some "/home/user/project") "/etc/evil" = false ∧
    applyEditHandler true [] "/etc/evil" "pwned".data =
      ([("/etc/evil", "pwned".data)], true) := by
  constructor
  · decide
  · rfl

/-- C7 counterexample: the provider-facing `apiMessages` array built for
the next turn contains marker syntax — the replayed assistant turn carries
its stored `[TOOL_STATUS]` span verbatim. -/
theorem provider_history_carries_marker :
    (buildApiMessages (getConversationHistory demoMessages) "next".data).any
      (fun m => containsMarker m.2) = true := by decide

/-- C7 amended: within a single request the tool-result turns for edit
proposals are replaced by a fixed acknowledgment, and no tool-result
content ever contains a `[DIFF_BLOCK]` marker; but conversation history is
replayed verbatim — every replayed turn's content is exactly some stored
message's text, so markers saved in assistant messages do reach the
provider. -/
theorem provider_representation_amended (result : List Char)
    (messages : List ChatMessage) (current : List Char) :
    includesSub diffOpen (toolResultContent result) = false ∧
    (includesSub diffOpen result = true → toolResultContent result = editAckText) ∧
    (∀ m ∈ buildApiMessages (getConversationHistory messages) current,
      m.2 = current ∨ ∃ msg ∈ messages, m.2 = msg.text) := by
  refine ⟨?_, ?_, ?_⟩
  · unfold toolResultContent
    by_cases h : includesSub diffOpen result = true
    · rw [if_pos h]
      decide
    · rw [if_neg h]
      exact Bool.eq_false_iff.mpr h
  · intro h
    unfold toolResultContent
    rw [if_pos h]
  · intro m hm
    rw [buildApiMessages, List.mem_append] at hm
    rcases hm with hh | hc
    · right
      unfold getConversationHistory at hh
      obtain ⟨msg, hmsg, heq⟩ := List.mem_map.mp hh
      exact ⟨msg, (List.mem_filter.mp hmsg).1, by rw [← heq]⟩
    · left
      have : m = (ApiRole.user, current) := by simpa using hc
      rw [this]

/-- Concrete check of the amended C7. -/
theorem provider_representation_amended_witness :
    toolResultContent "x[DIFF_BLOCK]p[/DIFF_BLOCK]".data = editAckText ∧
    includesSub diffOpen (toolResultContent "plain".data) = false :=
  ⟨(provider_representation_amended "x[DIFF_BLOCK]p[/DIFF_BLOCK]".data [] []).2.1
      (by decide),
   (provider_representation_amended "plain".data [] []).1⟩

/-- C8 counterexample: with an uncommitted creation node at depth three
and no active rename edit, the notification is *not* suppressed —
`handleFsChange` schedules a refresh of the changed path's parent even
though a creation is in progress somewhere in the tree. -/
theorem handleFsChange_deep_temp_not_suppressed :
    deepHasNewList deepTempTree = true ∧
    handleFsChange none deepTempTree "a/b/x.txt" = some "a/b" := by decide

/-- C8 amended: a notification is suppressed exactly when a node is being
edited (`editingNodeId` set) or an uncommitted creation node exists at the
top level or among the immediate children of a top-level node; otherwise
the refresh scheduled targets the changed path's parent folder. -/
theorem handleFsChange_spec (editingNodeId : Option String)
    (tree : List WsNode) (changedPath : String) :
    (handleFsChange editingNodeId tree changedPath = none ↔
      (editingNodeId.isSome = true ∨ hasTempShallow tree = true)) ∧
    (¬ (editingNodeId.isSome = true ∨ hasTempShallow tree = true) →
      handleFsChange editingNodeId tree changedPath =
        some (getParentPath changedPath)) := by
  unfold handleFsChange
  by_cases h : (editingNodeId.isSome || hasTempShallow tree) = true
  · rw [if_pos h]
    rw [Bool.or_eq_true] at h
    exact ⟨⟨fun _ => h, fun _ => rfl⟩, fun hc => absurd h hc⟩
  · rw [if_neg h]
    rw [Bool.or_eq_true] at h
    constructor
    · constructor
      · intro hcon; cases hcon
      · intro hor; exact absurd hor h
    · intro _; rfl

/-- Concrete check of the amended C8: an edit in progress suppresses, a
quiet tree schedules the parent refresh. -/
theorem handleFsChange_spec_witness :
    handleFsChange (some "n1") [] "a/b/x.txt" = none ∧
    handleFsChange none [] "a/b/x.txt" = some "a/b" := by
  refine ⟨(handleFsChange_spec (some "n1") [] "a/b/x.txt").1.mpr (Or.inl rfl), ?_⟩
  have h := (handleFsChange_spec none [] "a/b/x.txt").2 (by decide)
  rw [h]
  decide

/-- C9: a file whose size exceeds 10 MB makes `fs:readFile` throw the
`File too large` error and return no content; a file at or under the limit
inside the workspace is read and returned in full. -/
theorem fsReadFile_size_limit (ρ : String → String) (root : Option String)
    (files : String → Option FileStat) (path : String) (f : FileStat)
    (hin : isWithinWorkspace ρ root path = true)
    (hf : files path = some f) :
    (f.size > 10 * 1024 * 1024 →
      fsReadFile ρ root files path =
        Except.error "File too large (>10MB). Please open smaller files.") ∧
    (f.size ≤ 10 * 1024 * 1024 →
      fsReadFile ρ root files path = Except.ok f.content) := by
  unfold fsReadFile
  rw [if_neg (by simp [hin]), hf]
  constructor
  · intro h
    show (if f.size > 10 * 1024 * 1024 then
        Except.error "File too large (>10MB). Please open smaller files."
      else Except.ok f.content) = _
    rw [if_pos h]
  · intro h
    show (if f.size > 10 * 1024 * 1024 then
        Except.error "File too large (>10MB). Please open smaller files."
      else Except.ok f.content) = _
    rw [if_neg (by omega)]

/-- Concrete check of C9: the small file is returned, the 10 MB + 1 byte
file is rejected. -/
theorem fsReadFile_size_limit_witness :
    fsReadFile (fun s => s) (some "/w") demoFiles "/w/a.txt" =
      Except.ok "abc".data ∧
    fsReadFile (fun s => s) (some "/w") demoFiles "/w/big.bin" =
      Except.error "File too large (>10MB). Please open smaller files." :=
  ⟨(fsReadFile_size_limit (fun s => s) (some "/w") demoFiles "/w/a.txt"
      { content := "abc".data, size := 3 } (by decide) (by decide)).2 (by decide),
   (fsReadFile_size_limit (fun s => s) (some "/w") demoFiles "/w/big.bin"
      { content := [], size := 10485761 } (by decide) (by decide)).1 (by decide)⟩

theorem nodeLe_trans : ∀ a b c : DirNode, nodeLe a b → nodeLe b c → nodeLe a c := by
  intro a b c hab hbc
  simp only [nodeLe, Bool.or_eq_true, Bool.and_eq_true, Bool.not_eq_true',
    beq_iff_eq, decide_eq_true_eq] at hab hbc ⊢
  rcases hab with ⟨ha, hb⟩ | ⟨hab, hname⟩ <;>
    rcases hbc with ⟨hb2, hc⟩ | ⟨hbc2, hname2⟩
  · left; exact ⟨ha, by simp_all⟩
  · left; exact ⟨ha, by simp_all⟩
  · left; exact ⟨by simp_all, hc⟩
  · right; exact ⟨by simp_all, le_trans hname hname2⟩

theorem nodeLe_total : ∀ a b : DirNode, nodeLe a b || nodeLe b a := by
  intro a b
  simp only [nodeLe, Bool.or_eq_true, Bool.and_eq_true, Bool.not_eq_true',
    beq_iff_eq, decide_eq_true_eq]
  by_cases hab : a.isFolder = b.isFolder
  · rcases le_total a.name b.name with h | h
    · left; right; exact ⟨hab, h⟩
    · right; right; exact ⟨hab.symm, h⟩
  · cases ha : a.isFolder <;> cases hb : b.isFolder <;> simp_all

/-- C10: every listing the tree receives hides dotfiles — no returned node
name starts with a dot — and is sorted folders-first then by name; a
directory read error produces the empty listing rather than an exception. -/
theorem readDirSafe_spec (dirPath : String) (listing : Option (List DirEntry)) :
    (readDirSafe dirPath listing).all (fun n => !(n.name.startsWith ".")) = true ∧
    List.Sorted (fun a b => nodeLe a b = true) (readDirSafe dirPath listing) ∧
    readDirSafe dirPath none = [] := by
  refine ⟨?_, ?_, rfl⟩
  · cases listing with
    | none => rfl
    | some entries =>
        rw [List.all_eq_true]
        intro n hn
        unfold readDirSafe at hn
        rw [List.mem_mergeSort] at hn
        obtain ⟨e, he, heq⟩ := List.mem_map.mp hn
        have hfl := (List.mem_filter.mp he).2
        rw [← heq]
        simpa using hfl
  · cases listing with
    | none => exact List.sorted_nil
    | some entries =>
        apply List.sorted_mergeSort
        · intro a b c h1 h2
          exact nodeLe_trans a b c h1 h2
        · intro a b
          exact nodeLe_total a b

end Monolith
